import Mathlib

/-!
# Verification of the USTAR read-only accessor library (lib_tar.c)

Shallow embedding of `src/lib_tar.c` (the complete second revision in that
file, whose helpers `check_end` and `next_header` are shared by all scans).

Modelling conventions:
* The seekable byte source (`tar_fd`) is an infinite byte stream
  `Tar := Nat → Nat` (each value a byte, `< 256`); a real archive file embeds
  as a stream that is zero past the file's end.  `read` always fills its
  buffer; the read position is threaded explicitly as a `Nat`.
* `lseek(fd, d, SEEK_CUR)` moves the position by `d`; a seek to a negative
  offset fails and leaves the position unchanged, as in POSIX.
* `char` is signed (the library targets Linux/x86): when the C code sums
  buffer bytes into an `int` (checksums, end-of-archive detection) a byte
  `b ≥ 128` contributes `b - 256`.  This is `sbyte`.
* `TAR_INT(p)` is `strtol(p, NULL, 8)`: skip leading whitespace, optional
  sign, then octal digits.  Headers keep their numeric fields terminated
  inside the field, so parsing is modelled on the field's bytes
  (12 for `size`, 8 for `chksum`).
* Paths are the byte lists of NUL-free C strings; `strncmp(buf, path,
  strlen(path)) == 0` is a byte-for-byte comparison of the stream against
  the path (`nameMatches`), and the `strstr`/`strcat` calls used by
  `read_symlink` and `list` act on the NUL-terminated `name` field
  (`cstr`, at most 100 bytes).
* `size_t` comparisons against possibly-negative `ssize_t` values are
  performed after conversion to `size_t`, i.e. modulo `2 ^ 64` (`toSizeT`).
* Every C loop (and the recursion of `read_symlink` / `list`) is embedded
  with explicit fuel; `none` means the fuel ran out.  Claims about
  terminating runs quantify over sufficient fuel.
-/

set_option maxRecDepth 8192

namespace LibTar

/-- The byte source: an infinite stream of bytes (values `< 256`). -/
abbrev Tar := Nat → Nat

/-- A byte read into a (signed) `char` and widened to `int`. -/
def sbyte (b : Nat) : Int := if b < 128 then (b : Int) else (b : Int) - 256

/-- `lseek(fd, delta, SEEK_CUR)`: a seek to a negative position fails and
leaves the position unchanged. -/
def seekCur (pos : Nat) (delta : Int) : Nat :=
  if (pos : Int) + delta < 0 then pos else ((pos : Int) + delta).toNat

/-- The `n` bytes of the stream starting at `p` (a fully successful
`read(fd, buf, n)`). -/
def readBytes (tar : Tar) (p n : Nat) : List Nat :=
  (List.range n).map (fun i => tar (p + i))

/-- The C string stored at `p`: bytes up to the first NUL, at most `bound`
bytes (header string fields are 100 bytes wide). -/
def cstr (tar : Tar) (p : Nat) : Nat → List Nat
  | 0 => []
  | bound + 1 => if tar p = 0 then [] else tar p :: cstr tar (p + 1) bound

/-- `strtol` whitespace: space, tab, newline, vertical tab, form feed, CR. -/
def isSpaceByte (b : Nat) : Bool := b = 32 || (9 ≤ b && b ≤ 13)

/-- Octal digit predicate: `'0'` to `'7'`. -/
def isOctDigit (b : Nat) : Bool := 48 ≤ b && b ≤ 55

/-- Accumulate octal digits, stopping at the first non-digit. -/
def octVal : List Nat → Nat → Nat
  | [], acc => acc
  | b :: bs, acc => if isOctDigit b then octVal bs (acc * 8 + (b - 48)) else acc

/-- `TAR_INT(p) = strtol(p, NULL, 8)` on the field's bytes: skip whitespace,
an optional `'-'` (45) or `'+'` (43) sign, then octal digits. -/
def parseOctal (l : List Nat) : Int :=
  match l.dropWhile isSpaceByte with
  | [] => 0
  | b :: rest =>
    if b = 45 then -(octVal rest 0 : Int)
    else if b = 43 then (octVal rest 0 : Int)
    else (octVal (b :: rest) 0 : Int)

/-- `TAR_INT(header->size)`: the `size` field is the 12 bytes at offset 124. -/
def sizeOf (tar : Tar) (p : Nat) : Int := parseOctal (readBytes tar (p + 124) 12)

/-- `TAR_INT(header->chksum)`: the `chksum` field is the 8 bytes at 148. -/
def chksumOf (tar : Tar) (p : Nat) : Int := parseOctal (readBytes tar (p + 148) 8)

/-- `header->typeflag`: the byte at offset 156. -/
def typeflagOf (tar : Tar) (p : Nat) : Nat := tar (p + 156)

/-- `REGTYPE '0'`. -/
def REGTYPE : Nat := 48
/-- `AREGTYPE '\0'`. -/
def AREGTYPE : Nat := 0
/-- `SYMTYPE '2'`. -/
def SYMTYPE : Nat := 50
/-- `DIRTYPE '5'`. -/
def DIRTYPE : Nat := 53

/-- `strncmp(header->magic, TMAGIC, TMAGLEN - 1) == 0`: the 5 bytes at
offset 257 spell `"ustar"`. -/
def magicOk (tar : Tar) (p : Nat) : Prop :=
  readBytes tar (p + 257) 5 = [117, 115, 116, 97, 114]

instance (tar : Tar) (p : Nat) : Decidable (magicOk tar p) := by
  unfold magicOk; infer_instance

/-- `strncmp(header->version, TVERSION, TVERSLEN) == 0`: the 2 bytes at
offset 263 spell `"00"`. -/
def versionOk (tar : Tar) (p : Nat) : Prop :=
  readBytes tar (p + 263) 2 = [48, 48]

instance (tar : Tar) (p : Nat) : Decidable (versionOk tar p) := by
  unfold versionOk; infer_instance

/-- Sum of `f` over the `2 ^ k` indices `b, b + 1, ..., b + 2 ^ k - 1`,
associated as a balanced tree.  The C loops sum left to right; integer
addition is associative, so the value is the same (`sumF_eq_listSum`
below proves it equal to the flat list sum); the balanced shape keeps
kernel reduction depth logarithmic so that concrete archives can be
evaluated by `decide`. -/
def sumF (f : Nat → Int) : Nat → Nat → Int
  | b, 0 => f b
  | b, k + 1 => sumF f b k + sumF f (b + 2 ^ k) k

/-- The checksum recomputed by `check_archive`: all 512 header bytes as
signed chars, the 8 checksum bytes (indices 148-155) replaced by `' '`. -/
def hdrSum (tar : Tar) (p : Nat) : Int :=
  sumF (fun i => if 148 ≤ i ∧ i ≤ 155 then (32 : Int) else sbyte (tar (p + i))) 0 9

/-- `strncmp(header->name, path, strlen(path)) == 0`: the stream bytes at
`p` start with the path's bytes (paths are NUL-free C strings). -/
def nameMatches (tar : Tar) (p : Nat) : List Nat → Bool
  | [] => true
  | c :: cs => tar p = c && nameMatches tar (p + 1) cs

/-- `pat` is a leading segment of `l`. -/
def startsWithB : List Nat → List Nat → Bool
  | [], _ => true
  | _ :: _, [] => false
  | a :: as, b :: bs => a = b && startsWithB as bs

/-- `strstr(hay, needle) != NULL` on byte lists. -/
def strstrB : List Nat → List Nat → Bool
  | hay, needle =>
    if startsWithB needle hay then true
    else match hay with
      | [] => false
      | _ :: t => strstrB t needle

/-- `check_end`: read the next 1024 bytes (the two peeked blocks), sum them
as signed chars, seek back 1024.  Returns the flag (`1` iff the sum is
zero) and the restored position. -/
def check_end (tar : Tar) (p : Nat) : Bool × Nat :=
  let s := sumF (fun i => sbyte (tar (p + i))) 0 10
  let p' := seekCur (p + 1024) (-1024)
  (s = 0, p')

/-- `next_header`: distance from the end of the current header to the next
header, `TAR_INT(header->size)` rounded up to whole 512-byte blocks
(C `int` division truncates toward zero: `Int.tdiv` / `Int.tmod`). -/
def next_header (tar : Tar) (p : Nat) : Int :=
  let sz := sizeOf tar p
  let next := Int.tdiv sz 512
  let next := if Int.tmod sz 512 ≠ 0 then next + 1 else next
  next * 512

/-- Position of the block after the current header's content: the header is
read (`+512`), then `lseek(fd, next_header(h), SEEK_CUR)`. -/
def stepPos (tar : Tar) (p : Nat) : Nat :=
  seekCur (p + 512) (next_header tar p)

/-- `check_archive`, fuelled.  Result: return value and final position. -/
def check_archive : Nat → Tar → Nat → Int → Option (Int × Nat)
  | 0, _, _, _ => none
  | fuel + 1, tar, p, count =>
    if ¬ magicOk tar p then some (-1, p + 512)
    else if ¬ versionOk tar p then some (-2, p + 512)
    else if chksumOf tar p ≠ hdrSum tar p then some (-3, p + 512)
    else
      let p' := stepPos tar p
      let fin := (check_end tar p').1
      let count' := count + 1
      if fin then some (count', p') else check_archive fuel tar p' count'

/-- `exists` (the C function; `exists` is reserved in Lean), fuelled. -/
def exists_entry : Nat → Tar → Nat → List Nat → Option (Int × Nat)
  | 0, _, _, _ => none
  | fuel + 1, tar, p, path =>
    if nameMatches tar p path then some (1, p + 512)
    else
      let p' := stepPos tar p
      if (check_end tar p').1 then some (0, p')
      else exists_entry fuel tar p' path

/-- `is_dir`, fuelled. -/
def is_dir : Nat → Tar → Nat → List Nat → Option (Int × Nat)
  | 0, _, _, _ => none
  | fuel + 1, tar, p, path =>
    if nameMatches tar p path then
      if typeflagOf tar p = DIRTYPE then some (1, p + 512) else some (0, p + 512)
    else
      let p' := stepPos tar p
      if (check_end tar p').1 then some (0, p')
      else is_dir fuel tar p' path

/-- `is_file`, fuelled. -/
def is_file : Nat → Tar → Nat → List Nat → Option (Int × Nat)
  | 0, _, _, _ => none
  | fuel + 1, tar, p, path =>
    if nameMatches tar p path then
      if typeflagOf tar p = REGTYPE ∨ typeflagOf tar p = AREGTYPE then
        some (1, p + 512)
      else some (0, p + 512)
    else
      let p' := stepPos tar p
      if (check_end tar p').1 then some (0, p')
      else is_file fuel tar p' path

/-- `is_symlink`, fuelled. -/
def is_symlink : Nat → Tar → Nat → List Nat → Option (Int × Nat)
  | 0, _, _, _ => none
  | fuel + 1, tar, p, path =>
    if nameMatches tar p path then
      if typeflagOf tar p = SYMTYPE then some (1, p + 512) else some (0, p + 512)
    else
      let p' := stepPos tar p
      if (check_end tar p').1 then some (0, p')
      else is_symlink fuel tar p' path

/-- Conversion of an `ssize_t` value to `size_t` (modulo `2 ^ 64`), as in the
unsigned comparisons `offset > size` and `(size - offset) < *len`. -/
def toSizeT (x : Int) : Int := Int.emod x (2 ^ 64)

/-- Result of `read_file` / `read_symlink`: return value, bytes written to
`dest`, the value stored through `len`, and the final position. -/
abbrev ReadRes := Int × List Nat × Nat × Nat

/-- The shared tail of `read_file` / `read_symlink` once a regular entry is
matched at `p` (position `p + 512`, just past the header): bounds-check the
offset, seek to it, clamp `*len` to the remainder, read, and report the
bytes still unread. -/
def readContent (tar : Tar) (p : Nat) (off cap : Nat) : ReadRes :=
  let size := sizeOf tar p
  if (off : Int) > toSizeT size then (-2, [], cap, p + 512)
  else
    let pos1 := seekCur (p + 512) (off : Int)
    let rem := toSizeT (size - (off : Int))
    let w := if rem < (cap : Int) then rem.toNat else cap
    (rem - (w : Int), readBytes tar pos1 w, w, pos1 + w)

/-- `read_symlink`, fuelled.  Matching uses `strstr` on the NUL-terminated
`name` field; note the guard `typeflag == DIRTYPE || !(REGTYPE || AREGTYPE)`
precedes the `SYMTYPE` test. -/
def read_symlink : Nat → Tar → Nat → List Nat → Nat → Nat → Option ReadRes
  | 0, _, _, _, _, _ => none
  | fuel + 1, tar, p, path, off, cap =>
    if strstrB (cstr tar p 100) path then
      if typeflagOf tar p = DIRTYPE ∨
          ¬ (typeflagOf tar p = REGTYPE ∨ typeflagOf tar p = AREGTYPE) then
        some (-1, [], cap, p + 512)
      else if typeflagOf tar p = SYMTYPE then
        read_symlink fuel tar (p + 512) (cstr tar (p + 157) 100) off cap
      else some (readContent tar p off cap)
    else
      let p' := stepPos tar p
      if (check_end tar p').1 then some (-1, [], cap, p')
      else read_symlink fuel tar p' path off cap

/-- `read_file`, fuelled.  Matching uses `strncmp` against the raw header
block; a matched symlink delegates to `read_symlink(header->linkname)`
starting from the current position (just past the link's header). -/
def read_file : Nat → Tar → Nat → List Nat → Nat → Nat → Option ReadRes
  | 0, _, _, _, _, _ => none
  | fuel + 1, tar, p, path, off, cap =>
    if nameMatches tar p path then
      if typeflagOf tar p = DIRTYPE then some (-1, [], cap, p + 512)
      else if typeflagOf tar p = SYMTYPE then
        read_symlink fuel tar (p + 512) (cstr tar (p + 157) 100) off cap
      else if ¬ (typeflagOf tar p = REGTYPE ∨ typeflagOf tar p = AREGTYPE) then
        some (-1, [], cap, p + 512)
      else some (readContent tar p off cap)
    else
      let p' := stepPos tar p
      if (check_end tar p').1 then some (-1, [], cap, p')
      else read_file fuel tar p' path off cap

/-- Index of the last `'/'` in `name` (0 when there is none): the C loop
`for (i = 0; i < strlen(name); ++i) if (name[i] == '/') depth = i;`. -/
def lastSlash (l : List Nat) : Nat :=
  (List.range l.length).foldl (fun d i => if l.getD i 0 = 47 then i else d) 0

/-- Result of `list`: return value, entry names written, the value stored
through `no_entries`, and the final position. -/
abbrev ListRes := Int × List (List Nat) × Nat × Nat

/-- The loop body of `list`, fuelled.  `count = -1` until the first match
(the directory itself); `home` is the depth of that first match; `acc` the
entries written so far; `cap` the caller's `*no_entries`.  A symlink's name
gets `'/'` appended (`strcat`) before matching, and a symlink matched first
restarts the whole walk (`return list(tar_fd, header->linkname, ...)`),
which seeks back to position 0. -/
def list_go : Nat → Tar → List Nat → Nat → Nat → Int → Nat → List (List Nat) →
    Option ListRes
  | 0, _, _, _, _, _, _, _ => none
  | fuel + 1, tar, path, cap, p, count, home, acc =>
    let name0 := cstr tar p 100
    let name := if typeflagOf tar p = SYMTYPE then name0 ++ [47] else name0
    if startsWithB path name then
      if typeflagOf tar p = SYMTYPE ∧ count = -1 then
        list_go fuel tar (cstr tar (p + 157) 100) cap 0 (-1) 0 []
      else
        let depth := lastSlash name
        let st :=
          if count = -1 then (⟨0, depth, acc⟩ : Int × Nat × List (List Nat))
          else if depth > home then
            if name.length = depth + 1 then
              if count < (cap : Int) then ⟨count + 1, home, acc ++ [name]⟩
              else ⟨count, home, acc⟩
            else ⟨count, home, acc⟩
          else
            if count < (cap : Int) then ⟨count + 1, home, acc ++ [name]⟩
            else ⟨count, home, acc⟩
        let p' := stepPos tar p
        if (check_end tar p').1 then
          let fin := if st.1 = -1 then (0 : Int) else st.1
          some (fin, st.2.2, fin.toNat, p')
        else list_go fuel tar path cap p' st.1 st.2.1 st.2.2
    else
      let p' := stepPos tar p
      if (check_end tar p').1 then
        let fin := if count = -1 then (0 : Int) else count
        some (fin, acc, fin.toNat, p')
      else list_go fuel tar path cap p' count home acc

/-- `list`, fuelled.  It takes the descriptor's current position `pos` but
immediately executes `lseek(tar_fd, 0, SEEK_SET)`, so the scan always starts
from the archive start regardless of `pos`. -/
def list (fuel : Nat) (tar : Tar) (_pos : Nat) (path : List Nat) (cap : Nat) :
    Option ListRes :=
  list_go fuel tar path cap 0 (-1) 0 []

/-! ## Concrete archives used as test vectors

An archive with finitely many nonzero bytes is written as a sparse table of
(position, byte) pairs; every position not listed reads 0.  Headers are
512-byte aligned; entries of size 0 carry no content blocks; the all-zero
tail doubles as the end-of-archive marker. -/

/-- Sparse byte-table lookup (default 0). -/
def tblGet : List (Nat × Nat) → Nat → Nat
  | [], _ => 0
  | (k, v) :: t, i => if i = k then v else tblGet t i

/-- A stream assembled from 512-byte blocks, each given as a sparse table
of (offset, byte) pairs; blocks beyond the listed ones are all zero. -/
def blockTar (blocks : List (List (Nat × Nat))) : Tar :=
  fun i => tblGet (blocks.getD (i / 512) []) (i % 512)

/-- The all-zero stream: an archive that starts with the end marker. -/
def zeroTar : Tar := fun _ => 0

/-- Two nonzero bytes `1` and `255` at positions 0 and 1: as signed chars
they sum to `1 + (-1) = 0`. -/
def ceTar : Tar := blockTar [[(0, 1), (1, 255)]]

/-- One regular file `"f"` of size 5 with content `"hello"`: header at
block 0 (name byte `'f'`, size field `"5"`, typeflag `'0'`), content at
512, end marker from 1024 on. -/
def fTar : Tar :=
  blockTar [[(0, 102), (124, 53), (156, 48)],
            [(0, 104), (1, 101), (2, 108), (3, 108), (4, 111)]]

/-- Symlink chain: `"a"` (symlink to `"b"`) at block 0, `"b"` (symlink to
`"c"`) at block 1, regular `"c"` of size 2 with content `"hi"` at block 2,
content at 1536, end marker from 2048 on. -/
def twoHopTar : Tar :=
  blockTar [[(0, 97), (156, 50), (157, 98)],
            [(0, 98), (156, 50), (157, 99)],
            [(0, 99), (124, 50), (156, 48)],
            [(0, 104), (1, 105)]]

/-- The directory tree of the `list` contract: `dir/` (block 0), `dir/a`
(block 1), `dir/b` (block 2), `dir/c/` (block 3), `dir/c/d` (block 4),
`dir/e/` (block 5), all of size 0; end marker from 3072 on. -/
def exTar : Tar :=
  blockTar [[(0, 100), (1, 105), (2, 114), (3, 47), (156, 53)],
            [(0, 100), (1, 105), (2, 114), (3, 47), (4, 97), (156, 48)],
            [(0, 100), (1, 105), (2, 114), (3, 47), (4, 98), (156, 48)],
            [(0, 100), (1, 105), (2, 114), (3, 47), (4, 99), (5, 47), (156, 53)],
            [(0, 100), (1, 105), (2, 114), (3, 47), (4, 99), (5, 47), (6, 100), (156, 48)],
            [(0, 100), (1, 105), (2, 114), (3, 47), (4, 101), (5, 47), (156, 53)]]

/-- Two regular files `"a"` (block 0) and `"ab"` (block 1), both size 0. -/
def abTar : Tar :=
  blockTar [[(0, 97), (156, 48)], [(0, 97), (1, 98), (156, 48)]]

/-- Two regular files `"a"` (block 0) and `"b"` (block 1), both size 0. -/
def posTar : Tar :=
  blockTar [[(0, 97), (156, 48)], [(0, 98), (156, 48)]]

/-- A self-referential symlink: `"a"` with `linkname` `"a"` at block 0,
end marker from 512 on. -/
def cycTar : Tar := blockTar [[(0, 97), (156, 50), (157, 97)]]

/-- A malformed archive: one header named `"x"` whose size field holds
`"-1000"` (bytes 45, 49, 48, 48, 48), which `strtol` base 8 parses as
-512, all other bytes zero. -/
def badTar : Tar :=
  blockTar [[(0, 120), (124, 45), (125, 49), (126, 48), (127, 48), (128, 48)]]

/-- One fully valid header: name `"a"`, regular, size 0, magic `"ustar"`,
version `"00"`, checksum field `"2040"` (octal for the correct sum 1056). -/
def vTar : Tar :=
  blockTar [[(0, 97), (148, 50), (149, 48), (150, 52), (151, 48), (156, 48),
             (257, 117), (258, 115), (259, 116), (260, 97), (261, 114),
             (263, 48), (264, 48)]]

/-! ## Specifications of the shared linear scan

`exists`, `is_dir`, `is_file`, `is_symlink` and `read_file` run the same
loop: read a header, test `strncmp(header->name, path, strlen(path))`,
otherwise advance by `next_header` and stop when `check_end` fires.
`Finds tar path n p q` says the scan started at `p` reaches its first
match at `q` after `n` non-matching headers; `Ends tar path n p e` says it
reaches the end marker with no match, stopping at position `e`. -/

inductive Finds (tar : Tar) (path : List Nat) : Nat → Nat → Nat → Prop
  | here (p : Nat) : nameMatches tar p path = true → Finds tar path 0 p p
  | there (n p q : Nat) :
      nameMatches tar p path = false →
      (check_end tar (stepPos tar p)).1 = false →
      Finds tar path n (stepPos tar p) q →
      Finds tar path (n + 1) p q

inductive Ends (tar : Tar) (path : List Nat) : Nat → Nat → Nat → Prop
  | here (p : Nat) :
      nameMatches tar p path = false →
      (check_end tar (stepPos tar p)).1 = true →
      Ends tar path 0 p (stepPos tar p)
  | there (n p e : Nat) :
      nameMatches tar p path = false →
      (check_end tar (stepPos tar p)).1 = false →
      Ends tar path n (stepPos tar p) e →
      Ends tar path (n + 1) p e

/-- The scan run by `read_symlink` uses `strstr` on the NUL-terminated
`name` field instead of the `strncmp` prefix test; `SFinds` and `SEnds`
describe its two outcomes exactly as `Finds` / `Ends` do for the other
scans: first match at `q` after `n` non-matching headers, or end marker
reached at `e` with no match. -/
inductive SFinds (tar : Tar) (path : List Nat) : Nat → Nat → Nat → Prop
  | here (p : Nat) : strstrB (cstr tar p 100) path = true → SFinds tar path 0 p p
  | there (n p q : Nat) :
      strstrB (cstr tar p 100) path = false →
      (check_end tar (stepPos tar p)).1 = false →
      SFinds tar path n (stepPos tar p) q →
      SFinds tar path (n + 1) p q

inductive SEnds (tar : Tar) (path : List Nat) : Nat → Nat → Nat → Prop
  | here (p : Nat) :
      strstrB (cstr tar p 100) path = false →
      (check_end tar (stepPos tar p)).1 = true →
      SEnds tar path 0 p (stepPos tar p)
  | there (n p e : Nat) :
      strstrB (cstr tar p 100) path = false →
      (check_end tar (stepPos tar p)).1 = false →
      SEnds tar path n (stepPos tar p) e →
      SEnds tar path (n + 1) p e

/-- `ArchOk tar p n e`: starting at `p` the archive holds `n` headers that
all pass `check_archive`'s three checks (magic, then version, then
checksum), after which the end marker is detected at position `e`. -/
inductive ArchOk (tar : Tar) : Nat → Nat → Nat → Prop
  | last (p : Nat) :
      magicOk tar p → versionOk tar p → chksumOf tar p = hdrSum tar p →
      (check_end tar (stepPos tar p)).1 = true →
      ArchOk tar p 1 (stepPos tar p)
  | cons (p n e : Nat) :
      magicOk tar p → versionOk tar p → chksumOf tar p = hdrSum tar p →
      (check_end tar (stepPos tar p)).1 = false →
      ArchOk tar (stepPos tar p) n e →
      ArchOk tar p (n + 1) e

/-- `FirstBad tar n p pf code`: starting at `p`, the first `n` headers pass
all three checks and are not final; the next header, at `pf`, fails with
`code`, following the precedence magic (`-1`) then version (`-2`) then
checksum (`-3`). -/
inductive FirstBad (tar : Tar) : Nat → Nat → Nat → Int → Prop
  | badMagic (p : Nat) : ¬ magicOk tar p → FirstBad tar 0 p p (-1)
  | badVersion (p : Nat) : magicOk tar p → ¬ versionOk tar p →
      FirstBad tar 0 p p (-2)
  | badChksum (p : Nat) : magicOk tar p → versionOk tar p →
      chksumOf tar p ≠ hdrSum tar p → FirstBad tar 0 p p (-3)
  | cons (n p pf : Nat) (code : Int) :
      magicOk tar p → versionOk tar p → chksumOf tar p = hdrSum tar p →
      (check_end tar (stepPos tar p)).1 = false →
      FirstBad tar n (stepPos tar p) pf code →
      FirstBad tar (n + 1) p pf code

/-! ## General lemmas about the embedding -/

/-- The balanced sum `sumF` equals the flat left-to-right sum of the same
`2 ^ k` values: the balanced tree is only a reassociation. -/
theorem sumF_eq_listSum (f : Nat → Int) : ∀ (k b : Nat),
    sumF f b k = ((List.range (2 ^ k)).map (fun i => f (b + i))).sum := by
  intro k
  induction k with
  | zero =>
    intro b
    rw [show List.range (2 ^ 0) = [0] from rfl]
    simp [sumF]
  | succ k ih =>
    intro b
    have h2 : 2 ^ (k + 1) = 2 ^ k + 2 ^ k := by ring
    rw [sumF, ih b, ih (b + 2 ^ k), h2, List.range_add]
    simp [List.sum_append, List.map_map, Function.comp_def, Nat.add_assoc]

theorem length_readBytes (tar : Tar) (p n : Nat) :
    (readBytes tar p n).length = n := by
  simp [readBytes]

theorem readBytes_append (tar : Tar) (a m k : Nat) :
    readBytes tar a m ++ readBytes tar (a + m) k = readBytes tar a (m + k) := by
  simp [readBytes, List.range_add, List.map_map, Function.comp_def, Nat.add_assoc]

theorem seekCur_natCast (a b : Nat) : seekCur a (b : Int) = a + b := by
  unfold seekCur
  rw [if_neg (by omega)]
  omega

theorem octVal_lt : ∀ (l : List Nat) (acc : Nat),
    octVal l acc < 8 ^ l.length * (acc + 1) := by
  intro l
  induction l with
  | nil => intro acc; simp [octVal]
  | cons b bs ih =>
    intro acc
    by_cases hb : isOctDigit b
    · have hb7 : b - 48 ≤ 7 := by
        unfold isOctDigit at hb; simp at hb; omega
      calc octVal (b :: bs) acc = octVal bs (acc * 8 + (b - 48)) := by
              simp [octVal, hb]
        _ < 8 ^ bs.length * (acc * 8 + (b - 48) + 1) := ih _
        _ ≤ 8 ^ bs.length * ((acc + 1) * 8) :=
              Nat.mul_le_mul (Nat.le_refl _) (by omega)
        _ = 8 ^ (b :: bs).length * (acc + 1) := by
              rw [List.length_cons, pow_succ]; ring
    · calc octVal (b :: bs) acc = acc := by simp [octVal, hb]
      _ < acc + 1 := by omega
      _ ≤ 8 ^ (b :: bs).length * (acc + 1) :=
            Nat.le_mul_of_pos_left _ (by positivity)

theorem parseOctal_lt (l : List Nat) : parseOctal l < 8 ^ l.length := by
  have hlen : (l.dropWhile isSpaceByte).length ≤ l.length :=
    (List.dropWhile_sublist isSpaceByte).length_le
  unfold parseOctal
  split
  · positivity
  · rename_i b rest heq
    have hrl : rest.length + 1 ≤ l.length := by
      rw [heq] at hlen; simpa using hlen
    split_ifs with h45 h43
    · have h1 : (0 : Int) < 8 ^ l.length := by positivity
      have h2 : (0 : Int) ≤ (octVal rest 0 : Int) := Int.natCast_nonneg _
      omega
    · have h1 : octVal rest 0 < 8 ^ l.length := by
        calc octVal rest 0 < 8 ^ rest.length * (0 + 1) := octVal_lt rest 0
          _ ≤ 8 ^ l.length := by
              rw [Nat.mul_one]
              exact Nat.pow_le_pow_right (by norm_num) (by omega)
      exact_mod_cast h1
    · have h1 : octVal (b :: rest) 0 < 8 ^ l.length := by
        calc octVal (b :: rest) 0 < 8 ^ (b :: rest).length * (0 + 1) :=
              octVal_lt (b :: rest) 0
          _ ≤ 8 ^ l.length := by
              rw [Nat.mul_one, List.length_cons]
              exact Nat.pow_le_pow_right (by norm_num) (by omega)
      exact_mod_cast h1

theorem parseOctal_nonneg {l : List Nat} (h : ∀ b ∈ l, b ≠ 45) :
    0 ≤ parseOctal l := by
  unfold parseOctal
  split
  · exact le_refl 0
  · rename_i b rest heq
    have hb : b ∈ l := by
      refine (List.dropWhile_sublist isSpaceByte).subset ?_
      rw [heq]; exact List.mem_cons_self b rest
    split_ifs with h45 h43
    · exact absurd h45 (h b hb)
    · exact Int.natCast_nonneg _
    · exact Int.natCast_nonneg _

theorem sizeOf_lt (tar : Tar) (p : Nat) : sizeOf tar p < 8 ^ 12 := by
  have h := parseOctal_lt (readBytes tar (p + 124) 12)
  rwa [length_readBytes] at h

theorem sizeOf_nonneg {tar : Tar} (hm : ∀ i, tar i ≠ 45) (p : Nat) :
    0 ≤ sizeOf tar p := by
  apply parseOctal_nonneg
  intro b hb
  simp only [readBytes, List.mem_map, List.mem_range] at hb
  obtain ⟨i, _, rfl⟩ := hb
  exact hm _

/-- Two all-zero peeked blocks are detected as the end of the archive. -/
theorem check_end_allZero {tar : Tar} {p : Nat}
    (h : ∀ i, i < 1024 → tar (p + i) = 0) : (check_end tar p).1 = true := by
  have hsum : sumF (fun i => sbyte (tar (p + i))) 0 10 = 0 := by
    rw [sumF_eq_listSum]
    refine List.sum_eq_zero ?_
    intro x hx
    simp only [List.mem_map, List.mem_range] at hx
    obtain ⟨i, hi, rfl⟩ := hx
    simp [h i (by simpa using hi), sbyte]
  simp [check_end, hsum]

/-- Evaluation of the read tail of `read_file` / `read_symlink` on a
regular entry of parsed size `s` at an offset `o ≤ s`: it writes the
`min (s - o) c` content bytes starting at byte `o`, reports that count
through `len`, and returns the number of unread trailing bytes. -/
theorem readContent_eq (tar : Tar) (q : Nat) (s o c : Nat)
    (hs : sizeOf tar q = (s : Int)) (ho : o ≤ s) :
    readContent tar q o c =
      (((s - o - min (s - o) c : Nat) : Int),
        readBytes tar (q + 512 + o) (min (s - o) c),
        min (s - o) c, q + 512 + o + min (s - o) c) := by
  have hbound : s < 2 ^ 64 := by
    have h1 := sizeOf_lt tar q
    rw [hs] at h1
    exact_mod_cast lt_trans h1 (by norm_num : (8 : Int) ^ 12 < 2 ^ 64)
  have hts : toSizeT (s : Int) = (s : Int) := by
    unfold toSizeT
    exact Int.emod_eq_of_lt (Int.natCast_nonneg _) (by exact_mod_cast hbound)
  have hrem : toSizeT ((s : Int) - o) = ((s - o : Nat) : Int) := by
    unfold toSizeT
    rw [show (s : Int) - o = ((s - o : Nat) : Int) by rw [Nat.cast_sub ho]]
    exact Int.emod_eq_of_lt (Int.natCast_nonneg _) (by exact_mod_cast (by omega : s - o < 2 ^ 64))
  unfold readContent
  simp only [hs]
  rw [hts, if_neg (by exact_mod_cast Nat.not_lt.mpr ho), hrem, seekCur_natCast]
  by_cases hw : s - o < c
  · rw [if_pos (by exact_mod_cast hw), Int.toNat_natCast,
       Nat.min_eq_left (Nat.le_of_lt hw)]
    rw [show ((s - o : Nat) : Int) - ((s - o : Nat) : Int) = ((s - o - (s - o) : Nat) : Int)
          by simp]
  · rw [if_neg (by exact_mod_cast hw), Nat.min_eq_right (Nat.le_of_not_lt hw)]
    rw [show ((s - o : Nat) : Int) - (c : Int) = ((s - o - c : Nat) : Int)
          by rw [Nat.cast_sub (Nat.le_of_not_lt hw)]]

/-! ## Claim C3: end-of-archive detection -/

/-- C3 (amended): `check_end` returns true if and only if the sum of the
two peeked 512-byte blocks' bytes, read as signed chars, is zero; in
particular two all-zero blocks are reported as the end of the archive, and
the read position is restored to its value before the call.  (The claim's
"every byte zero" direction fails: a nonzero pair of bytes `1` and `255`
also sums to zero, see the counterexample.) -/
theorem claim3_check_end (tar : Tar) (p : Nat) :
    ((check_end tar p).1 = true ↔ ((readBytes tar p 1024).map sbyte).sum = 0)
    ∧ ((∀ i, i < 1024 → tar (p + i) = 0) → (check_end tar p).1 = true)
    ∧ (check_end tar p).2 = p := by
  have hsum : sumF (fun i => sbyte (tar (p + i))) 0 10
      = ((readBytes tar p 1024).map sbyte).sum := by
    rw [sumF_eq_listSum]
    simp [readBytes, List.map_map, Function.comp_def]
  have hiff : (check_end tar p).1 = true ↔ ((readBytes tar p 1024).map sbyte).sum = 0 := by
    simp [check_end, hsum]
  refine ⟨hiff, fun h => check_end_allZero h, ?_⟩
  · show seekCur (p + 1024) (-1024) = p
    unfold seekCur
    rw [if_neg (by omega)]
    omega

/-- C3 counterexample: the claim's "if and only if every byte is zero"
fails.  On the stream with bytes `1` and `255` at positions 0 and 1 (all
other bytes zero), `check_end` reports end-of-archive even though the
peeked blocks are not all zero: the signed chars `1` and `-1` cancel. -/
theorem claim3_counterexample : (check_end ceTar 0).1 = true ∧ ceTar 0 ≠ 0 := by
  refine ⟨?_, ?_⟩ <;> decide

/-- C3 witness: on the all-zero stream at position 3, `check_end` reports
the end marker and restores the position. -/
theorem claim3_witness :
    (check_end zeroTar 3).1 = true ∧ (check_end zeroTar 3).2 = 3 :=
  ⟨(claim3_check_end zeroTar 3).2.1 (fun _ _ => rfl), (claim3_check_end zeroTar 3).2.2⟩

/-! ## Claim C6: advancing to the next header -/

/-- C6: for every header whose `size` field parses to a natural number `s`,
`next_header` returns exactly `ceil(s / 512) * 512 = ((s + 511) / 512) * 512`
bytes, and the walker's next position is the end of the current header plus
that amount — also when `s` is not a multiple of 512. -/
theorem claim6_advance (tar : Tar) (p : Nat) (s : Nat)
    (hs : sizeOf tar p = (s : Int)) :
    next_header tar p = (((s + 511) / 512 * 512 : Nat) : Int)
    ∧ stepPos tar p = p + 512 + (s + 511) / 512 * 512 := by
  have hdiv : (s : Int).tdiv 512 = ((s / 512 : Nat) : Int) := by
    rw [show ((512 : Int)) = ((512 : Nat) : Int) by norm_num, ← Int.ofNat_tdiv]
  have hmod : (s : Int).tmod 512 = ((s % 512 : Nat) : Int) := by
    rw [show ((512 : Int)) = ((512 : Nat) : Int) by norm_num, ← Int.ofNat_tmod]
  have h1 : next_header tar p = (((s + 511) / 512 * 512 : Nat) : Int) := by
    unfold next_header
    rw [hs]
    simp only [hdiv, hmod]
    by_cases h : s % 512 = 0
    · rw [if_neg (by simp [h])]
      exact_mod_cast (show s / 512 * 512 = (s + 511) / 512 * 512 by omega)
    · rw [if_pos (by exact_mod_cast h)]
      exact_mod_cast (show (s / 512 + 1) * 512 = (s + 511) / 512 * 512 by omega)
  exact ⟨h1, by unfold stepPos; rw [h1, seekCur_natCast]⟩

/-- C6 witness: the size-5 file of `fTar` occupies one padded block, so the
walker advances by 512 and the next header is at 1024. -/
theorem claim6_witness : next_header fTar 0 = 512 ∧ stepPos fTar 0 = 1024 := by
  have h := claim6_advance fTar 0 5 (by decide)
  exact ⟨h.1.trans (by decide), h.2.trans (by decide)⟩

/-! ## Lemmas: behaviour of each scan under `Finds` / `Ends` -/

theorem exists_entry_finds {tar : Tar} {path : List Nat} {n p q : Nat}
    (h : Finds tar path n p q) :
    ∀ fuel, n < fuel → exists_entry fuel tar p path = some (1, q + 512) := by
  induction h with
  | here p hm =>
    intro fuel hf
    cases fuel with
    | zero => omega
    | succ f => simp [exists_entry, hm]
  | there n p q hm he _ ih =>
    intro fuel hf
    cases fuel with
    | zero => omega
    | succ f =>
      simp only [exists_entry, hm, he, Bool.false_eq_true, if_false]
      exact ih f (by omega)

theorem exists_entry_ends {tar : Tar} {path : List Nat} {n p e : Nat}
    (h : Ends tar path n p e) :
    ∀ fuel, n < fuel → exists_entry fuel tar p path = some (0, e) := by
  induction h with
  | here p hm he =>
    intro fuel hf
    cases fuel with
    | zero => omega
    | succ f => simp [exists_entry, hm, he]
  | there n p e hm he _ ih =>
    intro fuel hf
    cases fuel with
    | zero => omega
    | succ f =>
      simp only [exists_entry, hm, he, Bool.false_eq_true, if_false]
      exact ih f (by omega)

theorem is_dir_finds {tar : Tar} {path : List Nat} {n p q : Nat}
    (h : Finds tar path n p q) :
    ∀ fuel, n < fuel → is_dir fuel tar p path =
      some (if typeflagOf tar q = DIRTYPE then 1 else 0, q + 512) := by
  induction h with
  | here p hm =>
    intro fuel hf
    cases fuel with
    | zero => omega
    | succ f =>
      simp only [is_dir, hm, if_true]
      split <;> simp_all
  | there n p q hm he _ ih =>
    intro fuel hf
    cases fuel with
    | zero => omega
    | succ f =>
      simp only [is_dir, hm, he, Bool.false_eq_true, if_false]
      exact ih f (by omega)

theorem is_dir_ends {tar : Tar} {path : List Nat} {n p e : Nat}
    (h : Ends tar path n p e) :
    ∀ fuel, n < fuel → is_dir fuel tar p path = some (0, e) := by
  induction h with
  | here p hm he =>
    intro fuel hf
    cases fuel with
    | zero => omega
    | succ f => simp [is_dir, hm, he]
  | there n p e hm he _ ih =>
    intro fuel hf
    cases fuel with
    | zero => omega
    | succ f =>
      simp only [is_dir, hm, he, Bool.false_eq_true, if_false]
      exact ih f (by omega)

theorem is_file_finds {tar : Tar} {path : List Nat} {n p q : Nat}
    (h : Finds tar path n p q) :
    ∀ fuel, n < fuel → is_file fuel tar p path =
      some (if typeflagOf tar q = REGTYPE ∨ typeflagOf tar q = AREGTYPE then 1 else 0,
            q + 512) := by
  induction h with
  | here p hm =>
    intro fuel hf
    cases fuel with
    | zero => omega
    | succ f =>
      simp only [is_file, hm, if_true]
      split <;> simp_all
  | there n p q hm he _ ih =>
    intro fuel hf
    cases fuel with
    | zero => omega
    | succ f =>
      simp only [is_file, hm, he, Bool.false_eq_true, if_false]
      exact ih f (by omega)

theorem is_file_ends {tar : Tar} {path : List Nat} {n p e : Nat}
    (h : Ends tar path n p e) :
    ∀ fuel, n < fuel → is_file fuel tar p path = some (0, e) := by
  induction h with
  | here p hm he =>
    intro fuel hf
    cases fuel with
    | zero => omega
    | succ f => simp [is_file, hm, he]
  | there n p e hm he _ ih =>
    intro fuel hf
    cases fuel with
    | zero => omega
    | succ f =>
      simp only [is_file, hm, he, Bool.false_eq_true, if_false]
      exact ih f (by omega)

theorem is_symlink_finds {tar : Tar} {path : List Nat} {n p q : Nat}
    (h : Finds tar path n p q) :
    ∀ fuel, n < fuel → is_symlink fuel tar p path =
      some (if typeflagOf tar q = SYMTYPE then 1 else 0, q + 512) := by
  induction h with
  | here p hm =>
    intro fuel hf
    cases fuel with
    | zero => omega
    | succ f =>
      simp only [is_symlink, hm, if_true]
      split <;> simp_all
  | there n p q hm he _ ih =>
    intro fuel hf
    cases fuel with
    | zero => omega
    | succ f =>
      simp only [is_symlink, hm, he, Bool.false_eq_true, if_false]
      exact ih f (by omega)

theorem is_symlink_ends {tar : Tar} {path : List Nat} {n p e : Nat}
    (h : Ends tar path n p e) :
    ∀ fuel, n < fuel → is_symlink fuel tar p path = some (0, e) := by
  induction h with
  | here p hm he =>
    intro fuel hf
    cases fuel with
    | zero => omega
    | succ f => simp [is_symlink, hm, he]
  | there n p e hm he _ ih =>
    intro fuel hf
    cases fuel with
    | zero => omega
    | succ f =>
      simp only [is_symlink, hm, he, Bool.false_eq_true, if_false]
      exact ih f (by omega)

/-- A `read_file` scan that first matches a regular entry at `q` evaluates
the shared read tail there. -/
theorem read_file_finds {tar : Tar} {path : List Nat} {n p q : Nat}
    (h : Finds tar path n p q)
    (hreg : typeflagOf tar q = REGTYPE ∨ typeflagOf tar q = AREGTYPE) :
    ∀ fuel off cap, n < fuel →
      read_file fuel tar p path off cap = some (readContent tar q off cap) := by
  induction h with
  | here p hm =>
    intro fuel off cap hf
    cases fuel with
    | zero => omega
    | succ f =>
      rcases hreg with h | h <;>
        simp [read_file, hm, h, REGTYPE, AREGTYPE, DIRTYPE, SYMTYPE]
  | there n p q hm he _ ih =>
    intro fuel off cap hf
    cases fuel with
    | zero => omega
    | succ f =>
      simp only [read_file, hm, he, Bool.false_eq_true, if_false]
      exact ih hreg f off cap (by omega)

theorem read_file_ends {tar : Tar} {path : List Nat} {n p e : Nat}
    (h : Ends tar path n p e) :
    ∀ fuel off cap, n < fuel →
      read_file fuel tar p path off cap = some (-1, [], cap, e) := by
  induction h with
  | here p hm he =>
    intro fuel off cap hf
    cases fuel with
    | zero => omega
    | succ f => simp [read_file, hm, he]
  | there n p e hm he _ ih =>
    intro fuel off cap hf
    cases fuel with
    | zero => omega
    | succ f =>
      simp only [read_file, hm, he, Bool.false_eq_true, if_false]
      exact ih f off cap (by omega)

theorem toSizeT_of_sizeOf {tar : Tar} {q s : Nat} (hs : sizeOf tar q = (s : Int)) :
    toSizeT (s : Int) = (s : Int) := by
  have h1 := sizeOf_lt tar q
  rw [hs] at h1
  unfold toSizeT
  exact Int.emod_eq_of_lt (Int.natCast_nonneg _) (lt_trans h1 (by norm_num))

/-! ## Claim C7: path lookup -/

/-- C7 (amended): the shared linear scan selects the first scanned block
whose `name` bytes start with the path: under `Finds` (first match at `q`
after `n` non-matching headers) `exists` reports 1 and the type queries
report exactly the matched header's typeflag test, and under `Ends` (end
marker reached with no match) they all report 0 and `read_file` reports
-1 — so the first match wins among duplicates and not-found is reported
exactly when no scanned block matches.  (The original claim's "first
header" fails only in the degenerate case of the empty path on an archive
whose first block already starts the end marker: that block is scanned as
a header before any end-marker test, see the counterexample.) -/
theorem claim7_lookup :
    (∀ (tar : Tar) (path : List Nat) (n p q fuel : Nat),
      Finds tar path n p q → n < fuel →
      exists_entry fuel tar p path = some (1, q + 512)
      ∧ is_dir fuel tar p path =
          some (if typeflagOf tar q = DIRTYPE then 1 else 0, q + 512)
      ∧ is_file fuel tar p path =
          some (if typeflagOf tar q = REGTYPE ∨ typeflagOf tar q = AREGTYPE then 1 else 0,
                q + 512)
      ∧ is_symlink fuel tar p path =
          some (if typeflagOf tar q = SYMTYPE then 1 else 0, q + 512))
    ∧ (∀ (tar : Tar) (path : List Nat) (n p e fuel off cap : Nat),
      Ends tar path n p e → n < fuel →
      exists_entry fuel tar p path = some (0, e)
      ∧ is_dir fuel tar p path = some (0, e)
      ∧ is_file fuel tar p path = some (0, e)
      ∧ is_symlink fuel tar p path = some (0, e)
      ∧ read_file fuel tar p path off cap = some (-1, [], cap, e)) := by
  constructor
  · intro tar path n p q fuel hF hf
    exact ⟨exists_entry_finds hF fuel hf, is_dir_finds hF fuel hf,
      is_file_finds hF fuel hf, is_symlink_finds hF fuel hf⟩
  · intro tar path n p e fuel off cap hE hf
    exact ⟨exists_entry_ends hE fuel hf, is_dir_ends hE fuel hf,
      is_file_ends hE fuel hf, is_symlink_ends hE fuel hf,
      read_file_ends hE fuel off cap hf⟩

/-- C7 counterexample: on the archive whose first block already starts the
end marker (the all-zero stream) there is no header before the end marker,
yet `exists` with the empty path reports found (1): the first block is read
as a header and matched before any end-marker check, and the empty path is
a prefix of its name. -/
theorem claim7_counterexample :
    exists_entry 1 zeroTar 0 [] = some (1, 512)
    ∧ (check_end zeroTar 0).1 = true := by
  refine ⟨?_, ?_⟩ <;> decide

/-- C7 witness: on `posTar` (`"a"` then `"b"`), the scan finds `"b"` in the
second header (`is_file` agrees), and an absent path `"z"` reports 0 from
`exists` and -1 from `read_file`. -/
theorem claim7_witness :
    exists_entry 2 posTar 0 [98] = some (1, 1024)
    ∧ is_file 2 posTar 0 [98] = some (1, 1024)
    ∧ exists_entry 2 posTar 0 [122] = some (0, 1024)
    ∧ read_file 2 posTar 0 [122] 0 7 = some (-1, [], 7, 1024) := by
  have hF : Finds posTar [98] 1 0 (stepPos posTar 0) :=
    Finds.there 0 0 _ (by decide) (by decide) (Finds.here _ (by decide))
  have hE : Ends posTar [122] 1 0 (stepPos posTar (stepPos posTar 0)) :=
    Ends.there 0 0 _ (by decide) (by decide) (Ends.here _ (by decide) (by decide))
  have h1 := claim7_lookup.1 posTar [98] 1 0 (stepPos posTar 0) 2 hF (by omega)
  have h2 := claim7_lookup.2 posTar [122] 1 0 (stepPos posTar (stepPos posTar 0)) 2 0 7
    hE (by omega)
  exact ⟨h1.1.trans (by decide), h1.2.2.1.trans (by decide),
    h2.1.trans (by decide), h2.2.2.2.2.trans (by decide)⟩

/-! ## Claim C4: offset boundary of read_file -/

/-- C4: when the scan finds a regular-file entry of parsed size `s`,
`read_file` at offset exactly `s` succeeds with zero bytes written, `*len`
set to 0 and return value 0; at offset `s + 1` it returns -2 without
touching the destination (`*len` keeps the caller's capacity). -/
theorem claim4_offset_boundary (tar : Tar) (path : List Nat) (n p q s : Nat)
    (hF : Finds tar path n p q)
    (hreg : typeflagOf tar q = REGTYPE ∨ typeflagOf tar q = AREGTYPE)
    (hs : sizeOf tar q = (s : Int)) (fuel cap : Nat) (hf : n < fuel) :
    read_file fuel tar p path s cap = some (0, [], 0, q + 512 + s)
    ∧ read_file fuel tar p path (s + 1) cap = some (-2, [], cap, q + 512) := by
  constructor
  · rw [read_file_finds hF hreg fuel s cap hf,
      readContent_eq tar q s s cap hs (le_refl s)]
    simp [readBytes]
  · rw [read_file_finds hF hreg fuel (s + 1) cap hf]
    unfold readContent
    simp only [hs]
    rw [toSizeT_of_sizeOf hs, if_pos (by exact_mod_cast Nat.lt_succ_self s)]

/-- C4 witness: on the size-5 file `"f"` of `fTar`, offset 5 yields a
zero-length successful read and offset 6 yields -2. -/
theorem claim4_witness :
    read_file 1 fTar 0 [102] 5 9 = some (0, [], 0, 517)
    ∧ read_file 1 fTar 0 [102] 6 9 = some (-2, [], 9, 512) := by
  have h := claim4_offset_boundary fTar [102] 0 0 0 5 (Finds.here 0 (by decide))
    (by decide) (by decide) 1 9 (by omega)
  exact ⟨h.1.trans (by decide), h.2.trans (by decide)⟩

/-! ## Claim C5: successful reads and resumption -/

/-- C5: when the scan finds a regular-file entry of parsed size `s`, a read
at offset `o ≤ s` with capacity `c` writes exactly the `min (s - o) c`
content bytes starting at byte `o`, stores that count through `len`, and
returns `s - o - written` (zero when the whole remainder was delivered);
consequently a second call resuming at offset `o + written` with enough
capacity returns the rest, and the two writes concatenate to the bytes of a
single full read from offset `o`. -/
theorem claim5_read_success (tar : Tar) (path : List Nat) (n p q s : Nat)
    (hF : Finds tar path n p q)
    (hreg : typeflagOf tar q = REGTYPE ∨ typeflagOf tar q = AREGTYPE)
    (hs : sizeOf tar q = (s : Int)) (fuel : Nat) (hf : n < fuel) :
    (∀ o c, o ≤ s →
      read_file fuel tar p path o c =
        some (((s - o - min (s - o) c : Nat) : Int),
          readBytes tar (q + 512 + o) (min (s - o) c),
          min (s - o) c, q + 512 + o + min (s - o) c))
    ∧ (∀ o c, o ≤ s →
        readBytes tar (q + 512 + o) (min (s - o) c)
          ++ readBytes tar (q + 512 + o + min (s - o) c) (s - o - min (s - o) c)
          = readBytes tar (q + 512 + o) (s - o)
        ∧ read_file fuel tar p path (o + min (s - o) c) s =
            some (0, readBytes tar (q + 512 + o + min (s - o) c) (s - o - min (s - o) c),
              s - o - min (s - o) c, q + 512 + s)) := by
  have hmain : ∀ o c, o ≤ s →
      read_file fuel tar p path o c =
        some (((s - o - min (s - o) c : Nat) : Int),
          readBytes tar (q + 512 + o) (min (s - o) c),
          min (s - o) c, q + 512 + o + min (s - o) c) := by
    intro o c ho
    rw [read_file_finds hF hreg fuel o c hf, readContent_eq tar q s o c hs ho]
  refine ⟨hmain, ?_⟩
  intro o c ho
  have hwle : min (s - o) c ≤ s - o := Nat.min_le_left _ _
  constructor
  · have h := readBytes_append tar (q + 512 + o) (min (s - o) c)
      (s - o - min (s - o) c)
    rwa [show min (s - o) c + (s - o - min (s - o) c) = s - o by omega] at h
  · have h2 := hmain (o + min (s - o) c) s (by omega)
    rw [h2]
    have hmin : min (s - (o + min (s - o) c)) s = s - o - min (s - o) c := by
      rw [Nat.min_eq_left (by omega)]
      omega
    rw [hmin, show q + 512 + (o + min (s - o) c) = q + 512 + o + min (s - o) c by omega,
      show s - (o + min (s - o) c) - (s - o - min (s - o) c) = 0 by omega,
      show q + 512 + o + min (s - o) c + (s - o - min (s - o) c) = q + 512 + s by omega]
    norm_num

/-- C5 witness: reading the 5-byte file `"f"` of `fTar` with capacity 3
delivers `"hel"` and reports 2 remaining; resuming at offset 3 delivers
`"lo"` and reports 0. -/
theorem claim5_witness :
    read_file 1 fTar 0 [102] 0 3 = some (2, [104, 101, 108], 3, 515)
    ∧ read_file 1 fTar 0 [102] 3 5 = some (0, [108, 111], 2, 517) := by
  have h := claim5_read_success fTar [102] 0 0 0 5 (Finds.here 0 (by decide))
    (by decide) (by decide) 1 (by omega)
  exact ⟨(h.1 0 3 (by omega)).trans (by decide), (h.1 3 5 (by omega)).trans (by decide)⟩

/-! ## Claim C2: check_archive -/

theorem check_archive_ok {tar : Tar} {p n e : Nat} (h : ArchOk tar p n e) :
    ∀ (fuel : Nat) (c : Int), n ≤ fuel →
      check_archive fuel tar p c = some (c + n, e) := by
  induction h with
  | last p h1 h2 h3 h4 =>
    intro fuel c hf
    cases fuel with
    | zero => omega
    | succ f => simp [check_archive, h1, h2, h3, h4]
  | cons p n e h1 h2 h3 h4 _ ih =>
    intro fuel c hf
    cases fuel with
    | zero => omega
    | succ f =>
      have hstep : check_archive (f + 1) tar p c =
          check_archive f tar (stepPos tar p) (c + 1) := by
        simp [check_archive, h1, h2, h3, h4]
      rw [hstep, ih f (c + 1) (by omega)]
      simp only [Option.some.injEq, Prod.mk.injEq]
      refine ⟨by push_cast; ring, ?_⟩
      trivial

theorem check_archive_bad {tar : Tar} {n p pf : Nat} {code : Int}
    (h : FirstBad tar n p pf code) :
    ∀ (fuel : Nat) (c : Int), n < fuel →
      check_archive fuel tar p c = some (code, pf + 512) := by
  induction h with
  | badMagic p h1 =>
    intro fuel c hf
    cases fuel with
    | zero => omega
    | succ f => simp [check_archive, h1]
  | badVersion p h1 h2 =>
    intro fuel c hf
    cases fuel with
    | zero => omega
    | succ f => simp [check_archive, h1, h2]
  | badChksum p h1 h2 h3 =>
    intro fuel c hf
    cases fuel with
    | zero => omega
    | succ f => simp [check_archive, h1, h2, h3]
  | cons n p pf code h1 h2 h3 h4 _ ih =>
    intro fuel c hf
    cases fuel with
    | zero => omega
    | succ f =>
      have hr := ih f (c + 1) (by omega)
      simp_all [check_archive]

/-- C2 (amended): on an archive holding at least one header, `check_archive`
returns the count of non-terminal headers before the end marker when every
scanned header passes the magic, version and checksum checks (`ArchOk`),
and otherwise returns -1 / -2 / -3 for the first offending header with
precedence magic over version over checksum, never scanning past it
(`FirstBad`).  (The claim's count clause fails only for an archive with
zero headers: `check_archive` validates a first header unconditionally, so
an archive that begins with the end marker yields -1, not 0 — see the
counterexample.) -/
theorem claim2_check_archive :
    (∀ (tar : Tar) (p n e fuel : Nat) (c : Int), ArchOk tar p n e → n ≤ fuel →
      check_archive fuel tar p c = some (c + n, e))
    ∧ (∀ (tar : Tar) (n p pf : Nat) (code : Int) (fuel : Nat) (c : Int),
      FirstBad tar n p pf code → n < fuel →
      check_archive fuel tar p c = some (code, pf + 512)) :=
  ⟨fun _ _ _ _ _ _ h hf => check_archive_ok h _ _ hf,
   fun _ _ _ _ _ _ _ h hf => check_archive_bad h _ _ hf⟩

/-- C2 counterexample: the all-zero stream is an archive that begins with
the end marker, so it stores no headers and the claim requires the count 0;
`check_archive` instead reads the first zero block as a header and returns
-1 (invalid magic). -/
theorem claim2_counterexample :
    (check_end zeroTar 0).1 = true ∧ check_archive 1 zeroTar 0 0 = some (-1, 512) := by
  refine ⟨?_, ?_⟩ <;> decide

/-- C2 witness: the one-header archive `vTar` (correct magic, version and
checksum) counts 1; the all-zero first header of `zeroTar` fails the magic
check with -1. -/
theorem claim2_witness :
    check_archive 1 vTar 0 0 = some (1, 512)
    ∧ check_archive 1 zeroTar 0 0 = some (-1, 512) := by
  constructor
  · have h := claim2_check_archive.1 vTar 0 1 (stepPos vTar 0) 1 0
      (ArchOk.last 0 (by decide) (by decide) (by decide) (by decide)) (by omega)
    exact h.trans (by decide)
  · have h := claim2_check_archive.2 zeroTar 0 0 0 (-1) 1 0
      (FirstBad.badMagic 0 (by decide)) (by omega)
    exact h.trans (by decide)

/-! ## Claim C9: termination of symlink resolution -/

theorem tblGet_ne {t : List (Nat × Nat)} {v : Nat} (hv : v ≠ 0)
    (h : ∀ e ∈ t, e.2 ≠ v) : ∀ i, tblGet t i ≠ v := by
  induction t with
  | nil => intro i hh; exact hv hh.symm
  | cons kv t ih =>
    intro i
    obtain ⟨k, w⟩ := kv
    show (if i = k then w else tblGet t i) ≠ v
    split
    · exact h (k, w) (List.mem_cons_self _ _)
    · exact ih (fun e he => h e (List.mem_cons_of_mem _ he)) i

theorem blockTarGet_ne {v : Nat} (hv : v ≠ 0) :
    ∀ (blocks : List (List (Nat × Nat))),
      (∀ bl ∈ blocks, ∀ e ∈ bl, e.2 ≠ v) →
      ∀ j k, tblGet (blocks.getD j []) k ≠ v := by
  intro blocks
  induction blocks with
  | nil => intro _ j k; rw [List.getD_nil]; intro hh; exact hv hh.symm
  | cons bl bls ih =>
    intro h j k
    cases j with
    | zero =>
      rw [List.getD_cons_zero]
      exact tblGet_ne hv (h bl (List.mem_cons_self _ _)) k
    | succ j =>
      rw [List.getD_cons_succ]
      exact ih (fun b hb e he => h b (List.mem_cons_of_mem _ hb) e he) j k

theorem blockTar_ne {blocks : List (List (Nat × Nat))} {v : Nat} (hv : v ≠ 0)
    (h : ∀ bl ∈ blocks, ∀ e ∈ bl, e.2 ≠ v) (i : Nat) : blockTar blocks i ≠ v :=
  blockTarGet_ne hv blocks h _ _

theorem blockTar_zeroTail (blocks : List (List (Nat × Nat))) (i : Nat)
    (h : blocks.length * 512 ≤ i) : blockTar blocks i = 0 := by
  unfold blockTar
  rw [List.getD_eq_default _ _ (by omega : blocks.length ≤ i / 512)]
  rfl

theorem next_header_nonneg {tar : Tar} (hm : ∀ i, tar i ≠ 45) (p : Nat) :
    0 ≤ next_header tar p := by
  have hsz := sizeOf_nonneg hm p
  have hdiv : 0 ≤ (sizeOf tar p).tdiv 512 := Int.tdiv_nonneg hsz (by norm_num)
  have h1 : next_header tar p =
      (if Int.tmod (sizeOf tar p) 512 ≠ 0 then (sizeOf tar p).tdiv 512 + 1
       else (sizeOf tar p).tdiv 512) * 512 := rfl
  rw [h1]
  split <;> nlinarith [hdiv]

theorem stepPos_lower {tar : Tar} (hm : ∀ i, tar i ≠ 45) (p : Nat) :
    p + 512 ≤ stepPos tar p := by
  unfold stepPos seekCur
  have h := next_header_nonneg hm p
  rw [if_neg (by omega)]
  omega

/-- The match branch of `read_symlink` never reaches its own recursive
call: the guard `typeflag == DIRTYPE || !(REGTYPE || AREGTYPE)` already
rejects every symlink, so a matched entry is handled in this step. -/
theorem read_symlink_match_total {tar : Tar} {p : Nat} {path : List Nat}
    (hmat : strstrB (cstr tar p 100) path = true) (f off cap : Nat) :
    ∃ r, read_symlink (f + 1) tar p path off cap = some r := by
  by_cases hA : typeflagOf tar p = DIRTYPE
  · exact ⟨(-1, [], cap, p + 512), by simp [read_symlink, hmat, hA]⟩
  · by_cases hreg : typeflagOf tar p = REGTYPE ∨ typeflagOf tar p = AREGTYPE
    · rcases hreg with h | h <;>
        exact ⟨readContent tar p off cap,
          by simp [read_symlink, hmat, hA, h, REGTYPE, AREGTYPE, SYMTYPE, DIRTYPE]⟩
    · exact ⟨(-1, [], cap, p + 512), by simp [read_symlink, hmat, hA, hreg]⟩

theorem read_symlink_total {tar : Tar} {N : Nat}
    (hz : ∀ i, N ≤ i → tar i = 0) (hm : ∀ i, tar i ≠ 45) (off cap : Nat) :
    ∀ (m p : Nat) (path : List Nat), N ≤ p + 512 * m →
      ∃ r, read_symlink (m + 1) tar p path off cap = some r := by
  intro m
  induction m with
  | zero =>
    intro p path hN
    cases hmat : strstrB (cstr tar p 100) path with
    | true => exact read_symlink_match_total hmat 0 off cap
    | false =>
      have he : (check_end tar (stepPos tar p)).1 = true := by
        apply check_end_allZero
        intro i _
        exact hz _ (by have := stepPos_lower hm p; omega)
      exact ⟨(-1, [], cap, stepPos tar p), by simp [read_symlink, hmat, he]⟩
  | succ m ih =>
    intro p path hN
    cases hmat : strstrB (cstr tar p 100) path with
    | true => exact read_symlink_match_total hmat (m + 1) off cap
    | false =>
      cases he : (check_end tar (stepPos tar p)).1 with
      | true => exact ⟨(-1, [], cap, stepPos tar p), by simp [read_symlink, hmat, he]⟩
      | false =>
        obtain ⟨r, hr⟩ := ih (stepPos tar p) path
          (by have := stepPos_lower hm p; omega)
        refine ⟨r, ?_⟩
        have hstep : read_symlink (m + 2) tar p path off cap =
            read_symlink (m + 1) tar (stepPos tar p) path off cap := by
          simp [read_symlink, hmat, he]
        rw [hstep]
        exact hr

theorem read_file_total {tar : Tar} {N : Nat}
    (hz : ∀ i, N ≤ i → tar i = 0) (hm : ∀ i, tar i ≠ 45) (off cap : Nat) :
    ∀ (m p : Nat) (path : List Nat), N ≤ p + 512 * m →
      ∃ r, read_file (m + 2) tar p path off cap = some r := by
  have hmatch : ∀ (f p : Nat) (path : List Nat), N ≤ p + 512 * f →
      nameMatches tar p path = true →
      ∃ r, read_file (f + 2) tar p path off cap = some r := by
    intro f p path hN hmat
    by_cases hdir : typeflagOf tar p = DIRTYPE
    · exact ⟨(-1, [], cap, p + 512), by simp [read_file, hmat, hdir]⟩
    · by_cases hsym : typeflagOf tar p = SYMTYPE
      · obtain ⟨r, hr⟩ := read_symlink_total hz hm off cap f (p + 512)
          (cstr tar (p + 157) 100) (by omega)
        refine ⟨r, ?_⟩
        have hstep : read_file (f + 2) tar p path off cap =
            read_symlink (f + 1) tar (p + 512) (cstr tar (p + 157) 100) off cap := by
          simp [read_file, hmat, hdir, hsym, SYMTYPE, DIRTYPE]
        rw [hstep]
        exact hr
      · by_cases hreg : typeflagOf tar p = REGTYPE ∨ typeflagOf tar p = AREGTYPE
        · rcases hreg with h | h <;>
            exact ⟨readContent tar p off cap,
              by simp [read_file, hmat, hdir, hsym, h, REGTYPE, AREGTYPE,
                SYMTYPE, DIRTYPE]⟩
        · exact ⟨(-1, [], cap, p + 512), by simp [read_file, hmat, hdir, hsym, hreg]⟩
  intro m
  induction m with
  | zero =>
    intro p path hN
    cases hmat : nameMatches tar p path with
    | true => exact hmatch 0 p path hN hmat
    | false =>
      have he : (check_end tar (stepPos tar p)).1 = true := by
        apply check_end_allZero
        intro i _
        exact hz _ (by have := stepPos_lower hm p; omega)
      exact ⟨(-1, [], cap, stepPos tar p), by simp [read_file, hmat, he]⟩
  | succ m ih =>
    intro p path hN
    cases hmat : nameMatches tar p path with
    | true => exact hmatch (m + 1) p path hN hmat
    | false =>
      cases he : (check_end tar (stepPos tar p)).1 with
      | true => exact ⟨(-1, [], cap, stepPos tar p), by simp [read_file, hmat, he]⟩
      | false =>
        obtain ⟨r, hr⟩ := ih (stepPos tar p) path
          (by have := stepPos_lower hm p; omega)
        refine ⟨r, ?_⟩
        have hstep : read_file (m + 3) tar p path off cap =
            read_file (m + 2) tar (stepPos tar p) path off cap := by
          simp [read_file, hmat, he]
        rw [hstep]
        exact hr

/-- The scan of every lookup loop first matches `path` at `q`. -/
theorem finds_match {tar : Tar} {path : List Nat} {n p q : Nat}
    (h : Finds tar path n p q) : nameMatches tar q path = true := by
  induction h with
  | here p hm => exact hm
  | there n p q hm he _ ih => exact ih

theorem sfinds_match {tar : Tar} {path : List Nat} {n p q : Nat}
    (h : SFinds tar path n p q) : strstrB (cstr tar q 100) path = true := by
  induction h with
  | here p hm => exact hm
  | there n p q hm he _ ih => exact ih

/-- Skipping the `n` non-matching headers of a `read_file` scan costs
exactly `n` units of fuel. -/
theorem read_file_shift {tar : Tar} {path : List Nat} {n p q : Nat}
    (h : Finds tar path n p q) :
    ∀ fuel off cap, n < fuel →
      read_file fuel tar p path off cap = read_file (fuel - n) tar q path off cap := by
  induction h with
  | here p hm => intro fuel off cap hf; rfl
  | there n p q hm he _ ih =>
    intro fuel off cap hf
    cases fuel with
    | zero => omega
    | succ f =>
      simp only [read_file, hm, Bool.false_eq_true, if_false, he]
      rw [show f + 1 - (n + 1) = f - n by omega]
      exact ih f off cap (by omega)

/-- Skipping the `n` non-matching headers of a `read_symlink` scan costs
exactly `n` units of fuel. -/
theorem read_symlink_shift {tar : Tar} {path : List Nat} {n p q : Nat}
    (h : SFinds tar path n p q) :
    ∀ fuel off cap, n < fuel →
      read_symlink fuel tar p path off cap
        = read_symlink (fuel - n) tar q path off cap := by
  induction h with
  | here p hm => intro fuel off cap hf; rfl
  | there n p q hm he _ ih =>
    intro fuel off cap hf
    cases fuel with
    | zero => omega
    | succ f =>
      simp only [read_symlink, hm, Bool.false_eq_true, if_false, he]
      rw [show f + 1 - (n + 1) = f - n by omega]
      exact ih f off cap (by omega)

/-- A `read_symlink` scan that reaches the end marker returns -1. -/
theorem read_symlink_sends {tar : Tar} {path : List Nat} {n p e : Nat}
    (h : SEnds tar path n p e) :
    ∀ fuel off cap, n < fuel →
      read_symlink fuel tar p path off cap = some (-1, [], cap, e) := by
  induction h with
  | here p hm he =>
    intro fuel off cap hf
    cases fuel with
    | zero => omega
    | succ f => simp [read_symlink, hm, he]
  | there n p e hm he _ ih =>
    intro fuel off cap hf
    cases fuel with
    | zero => omega
    | succ f =>
      simp only [read_symlink, hm, Bool.false_eq_true, if_false, he]
      exact ih f off cap (by omega)

/-- A matched non-symlink entry is settled by `read_file` in this step,
whatever its typeflag. -/
theorem read_file_match_total {tar : Tar} {q : Nat} {path : List Nat}
    (hm : nameMatches tar q path = true)
    (hsym : ¬ typeflagOf tar q = SYMTYPE) (f off cap : Nat) :
    ∃ r, read_file (f + 1) tar q path off cap = some r := by
  by_cases hdir : typeflagOf tar q = DIRTYPE
  · exact ⟨(-1, [], cap, q + 512), by simp [read_file, hm, hdir]⟩
  · by_cases hreg : typeflagOf tar q = REGTYPE ∨ typeflagOf tar q = AREGTYPE
    · rcases hreg with h | h <;>
        exact ⟨readContent tar q off cap,
          by simp [read_file, hm, hdir, hsym, h, REGTYPE, AREGTYPE, SYMTYPE, DIRTYPE]⟩
    · exact ⟨(-1, [], cap, q + 512), by simp [read_file, hm, hdir, hsym, hreg]⟩

/-- A matched symlink makes `read_file` delegate to `read_symlink` on the
linkname, from just past the link's header, with one unit of fuel spent. -/
theorem read_file_sym_step {tar : Tar} {q : Nat} {path : List Nat}
    (hm : nameMatches tar q path = true)
    (hsym : typeflagOf tar q = SYMTYPE) (f off cap : Nat) :
    read_file (f + 1) tar q path off cap =
      read_symlink f tar (q + 512) (cstr tar (q + 157) 100) off cap := by
  simp [read_file, hm, hsym, SYMTYPE, DIRTYPE]

/-- At a matched entry `read_symlink` never consumes further fuel: the
guard `typeflag == DIRTYPE || !(REGTYPE || AREGTYPE)` rejects every
symlink before the `SYMTYPE` recursion is tested, so one unit of fuel
settles the match — the chain-following recursion is unreachable. -/
theorem read_symlink_one_hop {tar : Tar} {p : Nat} {path : List Nat}
    (hmat : strstrB (cstr tar p 100) path = true) (f off cap : Nat) :
    read_symlink (f + 1) tar p path off cap = read_symlink 1 tar p path off cap := by
  by_cases hA : typeflagOf tar p = DIRTYPE
  · simp [read_symlink, hmat, hA]
  · by_cases hreg : typeflagOf tar p = REGTYPE ∨ typeflagOf tar p = AREGTYPE
    · rcases hreg with h | h <;>
        simp [read_symlink, hmat, hA, h, REGTYPE, AREGTYPE, SYMTYPE, DIRTYPE]
    · simp [read_symlink, hmat, hA, hreg]

/-- C9 (amended): symbolic-link resolution follows at most one link hop
and cannot loop through cyclic or self-referential link chains, and it
terminates whenever the underlying forward header walk does, within a
fuel bound computed from the scan lengths: if the scan from the call's
position reaches the end marker after `n` headers (`Ends`), `read_file`
returns -1 within fuel `n + 1`; if it finds its first match after `n`
headers (`Finds`) at a non-symlink, it returns in place within `n + 1`;
if that match is a symlink, the single secondary scan for its linkname
settles the call within fuel `n + n' + 2`, whether it ends (`SEnds`,
result -1) or matches (`SFinds`); and at any matched entry `read_symlink`
needs exactly one unit of fuel — its chain-following recursion sits
behind a guard that has already rejected every symlink, so it is
unreachable and the hop count is at most one.  The original claim's
"terminates for every archive" is refuted by the counterexample: a size
field parsing negative makes the walker reseek the same header forever. -/
theorem claim9_resolution :
    (∀ (tar : Tar) (path : List Nat) (n p e off cap : Nat),
      Ends tar path n p e →
      read_file (n + 1) tar p path off cap = some (-1, [], cap, e))
    ∧ (∀ (tar : Tar) (path : List Nat) (n p q off cap : Nat),
      Finds tar path n p q → ¬ typeflagOf tar q = SYMTYPE →
      ∃ r, read_file (n + 1) tar p path off cap = some r)
    ∧ (∀ (tar : Tar) (path : List Nat) (n p q off cap : Nat),
      Finds tar path n p q → typeflagOf tar q = SYMTYPE →
      (∀ n' e', SEnds tar (cstr tar (q + 157) 100) n' (q + 512) e' →
        read_file (n + n' + 2) tar p path off cap = some (-1, [], cap, e'))
      ∧ (∀ n' q', SFinds tar (cstr tar (q + 157) 100) n' (q + 512) q' →
        ∃ r, read_file (n + n' + 2) tar p path off cap = some r))
    ∧ (∀ (tar : Tar) (p : Nat) (path : List Nat) (f off cap : Nat),
      strstrB (cstr tar p 100) path = true →
      read_symlink (f + 1) tar p path off cap
        = read_symlink 1 tar p path off cap) := by
  refine ⟨?_, ?_, ?_, ?_⟩
  · intro tar path n p e off cap hE
    exact read_file_ends hE (n + 1) off cap (by omega)
  · intro tar path n p q off cap hF hsym
    have h1 := read_file_shift hF (n + 1) off cap (by omega)
    rw [show n + 1 - n = 1 by omega] at h1
    obtain ⟨r, hr⟩ := read_file_match_total (finds_match hF) hsym 0 off cap
    exact ⟨r, h1.trans hr⟩
  · intro tar path n p q off cap hF hsym
    have h1 : ∀ g, read_file (n + g + 1) tar p path off cap
        = read_symlink g tar (q + 512) (cstr tar (q + 157) 100) off cap := by
      intro g
      have h2 := read_file_shift hF (n + g + 1) off cap (by omega)
      rw [show n + g + 1 - n = g + 1 by omega] at h2
      exact h2.trans (read_file_sym_step (finds_match hF) hsym g off cap)
    constructor
    · intro n' e' hS
      have h3 := h1 (n' + 1)
      rw [show n + (n' + 1) + 1 = n + n' + 2 by omega] at h3
      exact h3.trans (read_symlink_sends hS (n' + 1) off cap (by omega))
    · intro n' q' hS
      have h2 := h1 (n' + 1)
      rw [show n + (n' + 1) + 1 = n + n' + 2 by omega] at h2
      have h3 := read_symlink_shift hS (n' + 1) off cap (by omega)
      rw [show n' + 1 - n' = 1 by omega] at h3
      obtain ⟨r, hr⟩ := read_symlink_match_total (sfinds_match hS) 0 off cap
      exact ⟨r, (h2.trans h3).trans hr⟩
  · intro tar p path f off cap hmat
    exact read_symlink_one_hop hmat f off cap

/-- C9 counterexample: the claim's "terminates for every archive" is
false.  On `badTar` — a single header whose size field reads `"-1000"`,
parsed by `strtol` base 8 to -512 — `next_header` is -512, so the walker
seeks from the end of the header straight back to its start
(`stepPos = 0`), `check_end` never fires (the header block is nonzero)
and the name never matches: the scan revisits the same header forever and
`read_file` yields no result at any fuel, exactly as the C loop never
returns. -/
theorem claim9_counterexample :
    (∀ fuel : Nat, read_file fuel badTar 0 [122] 0 10 = none)
    ∧ sizeOf badTar 0 = -512
    ∧ stepPos badTar 0 = 0
    ∧ (check_end badTar 0).1 = false
    ∧ nameMatches badTar 0 [122] = false := by
  refine ⟨?_, by decide, by decide, by decide, by decide⟩
  intro fuel
  induction fuel with
  | zero => rfl
  | succ f ih =>
    have h1 : nameMatches badTar 0 [122] = false := by decide
    have h2 : stepPos badTar 0 = 0 := by decide
    have h3 : (check_end badTar 0).1 = false := by decide
    simp only [read_file, h1, Bool.false_eq_true, if_false, h2, h3]
    exact ih

/-- C9 witness: on the archive whose only entry is the self-referential
symlink `"a" -> "a"`, the matched link's secondary scan hits the end
marker at once, so resolution terminates with -1 after the single hop. -/
theorem claim9_witness :
    read_file 2 cycTar 0 [97] 0 10 = some (-1, [], 10, 1024) := by
  have h := (claim9_resolution.2.2.1 cycTar [97] 0 0 0 0 10
      (Finds.here 0 (by decide)) (by decide)).1 0 (stepPos cycTar 512)
      (SEnds.here 512 (by decide) (by decide))
  exact h.trans (by decide)

/-! ## Claim C1: symlink chain resolution (code bug) -/

/-- C1 (code bug): on `twoHopTar`, `"a"` and `"b"` are symlinks forming the
chain a -> b -> c and `"c"` is a regular 2-byte file, yet
`read_file("a")` returns -1 instead of c's content: `read_symlink` tests
`typeflag == DIRTYPE || !(REGTYPE || AREGTYPE)` before its `SYMTYPE`
branch, so the matched intermediate link `"b"` is rejected as "not a file"
and the chain-following recursion is unreachable.  Reading `"c"` directly
(or any single-hop chain) works, which shows the chain case is the broken
one. -/
theorem claim1_code_bug :
    is_symlink 5 twoHopTar 0 [97] = some (1, 512)
    ∧ is_symlink 5 twoHopTar 0 [98] = some (1, 1024)
    ∧ is_file 5 twoHopTar 0 [99] = some (1, 1536)
    ∧ read_file 5 twoHopTar 0 [97] 0 10 = some (-1, [], 10, 1024)
    ∧ read_file 5 twoHopTar 0 [98] 0 10 = some (0, [104, 105], 2, 1538)
    ∧ read_file 5 twoHopTar 0 [99] 0 10 = some (0, [104, 105], 2, 1538) := by
  refine ⟨?_, ?_, ?_, ?_, ?_, ?_⟩ <;> decide

/-! ## Claim C8: listing a directory (code bug) -/

/-- C8 (code bug): on the contract's example tree, `list "dir/"` does
report exactly dir/a, dir/b, dir/c/, dir/e/ (never dir/c/d) and a path
matching nothing reports 0 with no entries; but `list` never checks that
the matched entry is a directory, so for the archive with regular files
`"a"` and `"ab"`, `list "a"` — a path that is a file (`is_dir` = 0), not a
directory — returns 1 and lists `"ab"` instead of returning 0 with no
entries. -/
theorem claim8_code_bug :
    list 10 exTar 0 [100, 105, 114, 47] 10 =
      some (4, [[100, 105, 114, 47, 97], [100, 105, 114, 47, 98],
        [100, 105, 114, 47, 99, 47], [100, 105, 114, 47, 101, 47]], 4, 3072)
    ∧ list 10 exTar 0 [122] 10 = some (0, [], 0, 3072)
    ∧ is_dir 5 abTar 0 [97] = some (0, 512)
    ∧ list 10 abTar 0 [97] 10 = some (1, [[97, 98]], 1, 1024) := by
  refine ⟨?_, ?_, ?_, ?_⟩ <;> decide

/-! ## Claim C10: read-position discipline -/

/-- C10: only `list` repositions the source to the archive start — its
result is independent of the entry position (`lseek(tar_fd, 0, SEEK_SET)`
is the first thing it runs) — while the other operations scan from the
current position and leave it where their scan stopped: on `posTar`,
`exists("b")` from position 0 succeeds and leaves the position at 1024,
a subsequent `exists("a")` from there fails (0) because `"a"` is behind
the cursor, while `exists("a")` from position 0 succeeds. -/
theorem claim10_positions :
    (∀ (fuel : Nat) (tar : Tar) (pos pos' : Nat) (path : List Nat) (cap : Nat),
      list fuel tar pos path cap = list fuel tar pos' path cap)
    ∧ exists_entry 3 posTar 0 [98] = some (1, 1024)
    ∧ exists_entry 3 posTar 1024 [97] = some (0, 1536)
    ∧ exists_entry 3 posTar 0 [97] = some (1, 512) :=
  ⟨fun _ _ _ _ _ _ => rfl, by decide, by decide, by decide⟩

end LibTar
